import Mathlib

/-!
Verification development for the LexicalAnalyzer repository
(`LexicalAnalyzerGenerator.h` plus its single implementation/driver file).

The C++ core is shallowly embedded below:
* `RegexParser` (validation, explicit-concatenation insertion, shunting-yard),
* `NFA` (Thompson construction: `fromSymbol`, `concatenate`, `union_op`,
  `kleeneStar`, `fromRegex`, epsilon closures, `move`),
* `DFA` (subset construction `fromNFA`, `getNextState`, `accepts`, token labels),
* `LexicalAnalyzerGenerator` (`addTokenPattern`, `build`),
* the scanner `tokenize` loop that `DFA::generateCppCode` emits as C++ text.

C++ `std::string`s (patterns and token-type names) are embedded as `List Char`
(with `listCharLt` as the lexicographic `std::string` comparison), `int` as
`Int`.  A C++ `std::set<int>` / `std::set<char>` is embedded
as a strictly ascending duplicate-free `List` (matching the container's
canonical order and iteration order), except for the transient state sets of
the closure and subset computations, which are embedded as `Finset Int`
(`std::set` equality is extensional set equality, which `Finset` equality
models directly).  A `std::map` is embedded as an association list whose
lookup returns the most recently written binding, or (for the generator's
`tokenPatterns` map) as a key-sorted association list.  The worklist loops of
`epsilonClosure` and `DFA::fromNFA`, and the emitted scanner loop, are embedded
with an explicit fuel parameter that provably dominates the loop's iteration
count, so the embedded functions compute by kernel reduction.
-/

namespace LexGen

/-- The null character: the C++ code uses `'\0'` as the epsilon label. -/
def epsChar : Char := Char.ofNat 0

/-- Embeds C++ `class State` (id, accepting flag, token type). -/
structure State where
  id : Int
  isAccepting : Bool
  tokenType : List Char
deriving DecidableEq, Repr

/-- Embeds C++ `class Transition` (`symbol == '\0'` is an epsilon transition). -/
structure Transition where
  fromState : Int
  toState : Int
  symbol : Char
deriving DecidableEq, Repr

/-- Embeds `std::set<int>::insert`: insert into a strictly ascending list, no duplicate. -/
def insertSortedInt (x : Int) : List Int → List Int
  | [] => [x]
  | y :: rest =>
    if x < y then x :: y :: rest
    else if x = y then y :: rest
    else y :: insertSortedInt x rest

/-- Embeds `std::set<char>::insert`: insert into a strictly ascending list, no duplicate. -/
def insertSortedChar (x : Char) : List Char → List Char
  | [] => [x]
  | y :: rest =>
    if x < y then x :: y :: rest
    else if x = y then y :: rest
    else y :: insertSortedChar x rest

/-- Embeds C++ `class NFA`.  `acceptingStates` is a `std::set<int>`
(ascending, duplicate-free). -/
structure NFA where
  states : List State
  transitions : List Transition
  startState : Int
  acceptingStates : List Int
  stateCounter : Int
deriving DecidableEq, Repr

/-- The default-constructed `NFA()` (start state 0, counter 0, nothing else). -/
def NFA.empty : NFA := ⟨[], [], 0, [], 0⟩

/-- Embeds `NFA::addState(stateId, isAccepting)`. -/
def NFA.addState (n : NFA) (stateId : Int) (isAcc : Bool) : NFA :=
  { n with
    states := n.states ++ [⟨stateId, isAcc, []⟩]
    acceptingStates :=
      if isAcc then insertSortedInt stateId n.acceptingStates else n.acceptingStates }

/-- Embeds `NFA::addTransition(from, to, symbol)` (a `push_back`). -/
def NFA.addTransition (n : NFA) (f t : Int) (symbol : Char) : NFA :=
  { n with transitions := n.transitions ++ [⟨f, t, symbol⟩] }

/-- Embeds `NFA::setStartState(stateId)`. -/
def NFA.setStartState (n : NFA) (stateId : Int) : NFA :=
  { n with startState := stateId }

/-- Embeds `NFA::fromSymbol(symbol)`: the two-state Thompson fragment. -/
def NFA.fromSymbol (symbol : Char) : NFA :=
  let n := ((((NFA.empty.addState 0 false).addState 1 true).addTransition 0 1 symbol).setStartState 0)
  { n with stateCounter := 2 }

/-- Embeds `NFA::concatenate(nfa1, nfa2)`: offset-renumber `nfa2`, demote `nfa1`'s
accepting states, connect them by epsilon to `nfa2`'s (shifted) start. -/
def NFA.concatenate (nfa1 nfa2 : NFA) : NFA :=
  let offset : Int := nfa1.states.length
  let r := nfa1.states.foldl (fun r s => r.addState s.id false) NFA.empty
  let r := nfa2.states.foldl (fun r s => r.addState (s.id + offset) s.isAccepting) r
  let r := nfa1.transitions.foldl (fun r t => r.addTransition t.fromState t.toState t.symbol) r
  let r := nfa1.acceptingStates.foldl
    (fun r a => r.addTransition a (nfa2.startState + offset) epsChar) r
  let r := nfa2.transitions.foldl
    (fun r t => r.addTransition (t.fromState + offset) (t.toState + offset) t.symbol) r
  let r := r.setStartState nfa1.startState
  { r with stateCounter := (nfa1.states.length : Int) + (nfa2.states.length : Int) }

/-- Embeds `NFA::union_op(nfa1, nfa2)`: classical Thompson union.  Fresh start state 0,
both operands renumbered and demoted to non-accepting, one fresh accepting
state connected by epsilon from every operand accepting state. -/
def NFA.union_op (nfa1 nfa2 : NFA) : NFA :=
  let newStart : Int := 0
  let offset1 : Int := 1
  let offset2 : Int := offset1 + nfa1.states.length
  let newAccept : Int := offset2 + nfa2.states.length
  let r := (NFA.empty.addState newStart false).setStartState newStart
  let r := nfa1.states.foldl (fun r s => r.addState (s.id + offset1) false) r
  let r := nfa2.states.foldl (fun r s => r.addState (s.id + offset2) false) r
  let r := r.addState newAccept true
  let r := r.addTransition newStart (nfa1.startState + offset1) epsChar
  let r := r.addTransition newStart (nfa2.startState + offset2) epsChar
  let r := nfa1.transitions.foldl
    (fun r t => r.addTransition (t.fromState + offset1) (t.toState + offset1) t.symbol) r
  let r := nfa2.transitions.foldl
    (fun r t => r.addTransition (t.fromState + offset2) (t.toState + offset2) t.symbol) r
  let r := nfa1.acceptingStates.foldl (fun r a => r.addTransition (a + offset1) newAccept epsChar) r
  let r := nfa2.acceptingStates.foldl (fun r a => r.addTransition (a + offset2) newAccept epsChar) r
  { r with stateCounter := newAccept + 1 }

/-- Embeds `NFA::kleeneStar(nfa)`. -/
def NFA.kleeneStar (nfa : NFA) : NFA :=
  let newStart : Int := 0
  let offset : Int := 1
  let newAccept : Int := offset + nfa.states.length
  let r := (NFA.empty.addState newStart false).setStartState newStart
  let r := nfa.states.foldl (fun r s => r.addState (s.id + offset) false) r
  let r := r.addState newAccept true
  let r := r.addTransition newStart (nfa.startState + offset) epsChar
  let r := r.addTransition newStart newAccept epsChar
  let r := nfa.transitions.foldl
    (fun r t => r.addTransition (t.fromState + offset) (t.toState + offset) t.symbol) r
  let r := nfa.acceptingStates.foldl
    (fun r a => ((r.addTransition (a + offset) (nfa.startState + offset) epsChar).addTransition
      (a + offset) newAccept epsChar)) r
  { r with stateCounter := newAccept + 1 }

/-- Embeds `RegexParser::getPrecedence(op)`. -/
def RegexParser.getPrecedence (op : Char) : Int :=
  if op = '*' then 3 else if op = '.' then 2 else if op = '|' then 1 else 0

/-- Embeds `RegexParser::isOperator(c)`. -/
def RegexParser.isOperator (c : Char) : Bool :=
  decide (c = '*' ∨ c = '|' ∨ c = '.')

/-- Embeds the loop of `RegexParser::isValidRegex`: running parenthesis count, early
`false` as soon as the count goes negative, final check `count == 0`. -/
def RegexParser.validCount (count : Int) : List Char → Bool
  | [] => decide (count = 0)
  | c :: rest =>
    let count1 := if c = '(' then count + 1 else count
    let count2 := if c = ')' then count1 - 1 else count1
    if count2 < 0 then false else RegexParser.validCount count2 rest

/-- Embeds `RegexParser::isValidRegex(regex)`. -/
def RegexParser.isValidRegex (regex : List Char) : Bool :=
  RegexParser.validCount 0 regex

/-- First stage of `RegexParser::infixToPostfix`: walk the pattern and insert
the explicit concatenation operator `.` between a character and its successor
when the guard `(c != '(' && c != '|') && (next != ')' && next != '|' && next != '*')`
holds. -/
def RegexParser.addConcatenation : List Char → List Char
  | [] => []
  | [c] => [c]
  | c :: next :: rest =>
    c :: ((if (c ≠ '(' ∧ c ≠ '|') ∧ (next ≠ ')' ∧ next ≠ '|' ∧ next ≠ '*') then ['.'] else [])
      ++ RegexParser.addConcatenation (next :: rest))

/-- The operator-case `while` loop of the shunting-yard stage: pop to the
output while the stack top is not `'('` and has precedence `>=` the incoming
operator.  Returns (popped output, remaining stack); list head is stack top. -/
def RegexParser.popWhile (c : Char) : List Char → List Char × List Char
  | [] => ([], [])
  | top :: rest =>
    if top ≠ '(' ∧ RegexParser.getPrecedence top ≥ RegexParser.getPrecedence c then
      let p := RegexParser.popWhile c rest
      (top :: p.1, p.2)
    else ([], top :: rest)

/-- The `')'`-case `while` loop of the shunting-yard stage: pop to the output
until `'('`, then discard the `'('`. -/
def RegexParser.popUntilParen : List Char → List Char × List Char
  | [] => ([], [])
  | top :: rest =>
    if top = '(' then ([], rest)
    else
      let p := RegexParser.popUntilParen rest
      (top :: p.1, p.2)

/-- Second stage of `RegexParser::infixToPostfix` (shunting-yard); the final
`while (!opStack.empty())` flush is the `[]` case. -/
def RegexParser.shunt : List Char → List Char → List Char
  | [], stk => stk
  | c :: rest, stk =>
    if RegexParser.isOperator c = false ∧ c ≠ '(' ∧ c ≠ ')' then
      c :: RegexParser.shunt rest stk
    else if c = '(' then
      RegexParser.shunt rest (c :: stk)
    else if c = ')' then
      let p := RegexParser.popUntilParen stk
      p.1 ++ RegexParser.shunt rest p.2
    else
      let p := RegexParser.popWhile c stk
      p.1 ++ RegexParser.shunt rest (c :: p.2)

/-- Embeds `RegexParser::infixToPostfix(regex)` (renamed `toSuffix` here): insert
explicit concatenation, then shunting-yard to the operator-suffix form. -/
def RegexParser.toSuffix (regex : List Char) : List Char :=
  RegexParser.shunt (RegexParser.addConcatenation regex) []

/-- One step of `NFA::fromRegex`'s stack evaluation of the operator-suffix
stream.  An operator that does not find enough operands on the stack is
skipped (`continue` in the source), leaving the stack unchanged. -/
def NFA.stackStep (stk : List NFA) (c : Char) : List NFA :=
  if c = '*' then
    match stk with
    | [] => stk
    | n :: rest => NFA.kleeneStar n :: rest
  else if c = '|' then
    match stk with
    | n2 :: n1 :: rest => NFA.union_op n1 n2 :: rest
    | _ => stk
  else if c = '.' then
    match stk with
    | n2 :: n1 :: rest => NFA.concatenate n1 n2 :: rest
    | _ => stk
  else NFA.fromSymbol c :: stk

/-- The body of `NFA::fromRegex` after the suffix conversion: fold the stream
through the stack; an empty final stack yields the default-constructed `NFA()`,
otherwise the stack top is returned. -/
def NFA.fromSuffixForm (p : List Char) : NFA :=
  match p.foldl NFA.stackStep [] with
  | [] => NFA.empty
  | n :: _ => n

/-- Embeds `NFA::fromRegex(regex)`. -/
def NFA.fromRegex (regex : List Char) : NFA :=
  NFA.fromSuffixForm (RegexParser.toSuffix regex)

/-- The inner `for (trans : transitions)` loop of `NFA::epsilonClosure(int)`:
for every epsilon transition out of `current` whose target is not yet in the
closure, insert the target into the closure and push it on the DFS stack. -/
def epsilonScan (trs : List Transition) (current : Int) :
    Finset Int → List Int → Finset Int × List Int
  | closure, stk =>
    match trs with
    | [] => (closure, stk)
    | t :: rest =>
      if t.fromState = current ∧ t.symbol = epsChar ∧ t.toState ∉ closure then
        epsilonScan rest current (insert t.toState closure) (t.toState :: stk)
      else
        epsilonScan rest current closure stk

/-- The targets of all transitions of the NFA; every state the closure DFS can
discover lies in this set, which bounds the loop's fuel. -/
def targetsOf (n : NFA) : Finset Int :=
  (n.transitions.map Transition.toState).toFinset

/-- Loop measure for the closure DFS: inserting a new state pays for all stack
pushes it can cause, popping shrinks the stack. -/
def closureMeasure (n : NFA) (closure : Finset Int) (stk : List Int) : Nat :=
  (targetsOf n \ closure).card * (n.transitions.length + 1) + stk.length

/-- Fuel that dominates `closureMeasure` at the initial call. -/
def closureFuel (n : NFA) : Nat :=
  ((targetsOf n).card + 1) * (n.transitions.length + 1) + 1

/-- The `while (!stateStack.empty())` loop of `NFA::epsilonClosure(int)`,
with explicit fuel (the fuel supplied by `NFA.epsilonClosure` provably exceeds
the number of iterations, so the `0` case is never reached from there). -/
def closureLoop (n : NFA) : Nat → Finset Int → List Int → Finset Int
  | 0, closure, _ => closure
  | fuel + 1, closure, stk =>
    match stk with
    | [] => closure
    | current :: rest =>
      let p := epsilonScan n.transitions current closure rest
      closureLoop n fuel p.1 p.2

/-- Embeds `NFA::epsilonClosure(int state)`: DFS from `state` along epsilon
transitions. -/
def NFA.epsilonClosure (n : NFA) (state : Int) : Finset Int :=
  closureLoop n (closureFuel n) {state} [state]

/-- Embeds `NFA::epsilonClosure(const set<int>&)`: union of the single-state
closures of the members. -/
def NFA.epsilonClosureSet (n : NFA) (states : Finset Int) : Finset Int :=
  states.biUnion n.epsilonClosure

/-- Embeds `NFA::move(states, symbol)`: all targets of non-epsilon transitions on
`symbol` out of members of `states`. -/
def NFA.move (n : NFA) (states : Finset Int) (symbol : Char) : Finset Int :=
  states.biUnion fun s =>
    ((n.transitions.filter fun t => decide (t.fromState = s ∧ t.symbol = symbol)).map
      Transition.toState).toFinset

/-- Embeds C++ `class DFA`.  `transitions` embeds the
`map<pair<int,char>, int>`: a binding written later shadows an earlier one and
`getNextState` reads the most recent binding, which is observationally the
`std::map` assignment/lookup behaviour.  `acceptingStates` and `alphabet` are
`std::set`s (ascending duplicate-free lists); `stateToTokenType` embeds the
`map<int,string>` the same way as `transitions`. -/
structure DFA where
  states : List State
  transitions : List ((Int × Char) × Int)
  startState : Int
  acceptingStates : List Int
  alphabet : List Char
  stateToTokenType : List (Int × List Char)
deriving DecidableEq, Repr

/-- The default-constructed `DFA()`. -/
def DFA.empty : DFA := ⟨[], [], 0, [], [], []⟩

/-- The first-match update of `State::isAccepting` performed by
`addAcceptingState` (the C++ loop `break`s at the first state with the id). -/
def markAccepting (stateId : Int) : List State → List State
  | [] => []
  | s :: rest =>
    if s.id = stateId then { s with isAccepting := true } :: rest
    else s :: markAccepting stateId rest

/-- Embeds `DFA::addState(stateId, isAccepting)`. -/
def DFA.addState (d : DFA) (stateId : Int) (isAcc : Bool) : DFA :=
  { d with
    states := d.states ++ [⟨stateId, isAcc, []⟩]
    acceptingStates :=
      if isAcc then insertSortedInt stateId d.acceptingStates else d.acceptingStates }

/-- Embeds `DFA::addTransition(from, symbol, to)`: write the map binding (most recent
binding wins) and insert `symbol` into the alphabet. -/
def DFA.addTransition (d : DFA) (f : Int) (symbol : Char) (t : Int) : DFA :=
  { d with
    transitions := ((f, symbol), t) :: d.transitions
    alphabet := insertSortedChar symbol d.alphabet }

/-- Embeds `DFA::setStartState(stateId)`. -/
def DFA.setStartState (d : DFA) (stateId : Int) : DFA :=
  { d with startState := stateId }

/-- Embeds `DFA::addAcceptingState(stateId)`. -/
def DFA.addAcceptingState (d : DFA) (stateId : Int) : DFA :=
  { d with
    acceptingStates := insertSortedInt stateId d.acceptingStates
    states := markAccepting stateId d.states }

/-- Embeds `DFA::setTokenType(stateId, tokenType)` (a map write). -/
def DFA.setTokenType (d : DFA) (stateId : Int) (tokenType : List Char) : DFA :=
  { d with stateToTokenType := (stateId, tokenType) :: d.stateToTokenType }

/-- Embeds `DFA::getNextState(currentState, symbol)`: map lookup, `-1` if absent. -/
def DFA.getNextState (d : DFA) (currentState : Int) (symbol : Char) : Int :=
  match d.transitions.find? fun e => decide (e.1 = (currentState, symbol)) with
  | some e => e.2
  | none => -1

/-- Read access to `stateToTokenType` as used by `DFA::generateCppCode`'s
`stateToTokenType.find(state)`. -/
def DFA.lookupTokenType (d : DFA) (stateId : Int) : Option (List Char) :=
  (d.stateToTokenType.find? fun e => decide (e.1 = stateId)).map Prod.snd

/-- The emitted scanner's `stateToToken[state]` (`std::map::operator[]`
defaults to the empty string). -/
def DFA.lookupTokenTypeD (d : DFA) (stateId : Int) : List Char :=
  (d.lookupTokenType stateId).getD []

/-- The loop of `DFA::accepts`, started from an arbitrary state. -/
def DFA.acceptsFrom (d : DFA) : Int → List Char → Bool
  | s, [] => decide (s ∈ d.acceptingStates)
  | s, c :: rest =>
    let s2 := d.getNextState s c
    if s2 = -1 then false else d.acceptsFrom s2 rest

/-- Embeds `DFA::accepts(input)`: run the DFA over the whole input from the start
state; `false` on a missing transition, else check the final state. -/
def DFA.accepts (d : DFA) (input : List Char) : Bool :=
  d.acceptsFrom d.startState input

/-- Lookup in the `map<set<int>, int>` subset registry of `DFA::fromNFA`. -/
def mapFind (m : List (Finset Int × Int)) (key : Finset Int) : Option Int :=
  (m.find? fun e => decide (e.1 = key)).map Prod.snd

/-- The `for (char symbol : alphabet)` body of `DFA::fromNFA`: compute
`U = epsilonClosure(move(T, symbol))`; skip if empty; register, enqueue and
add a (possibly accepting) DFA state if the subset is new; record the
transition.  The accumulator is (subset registry, queue, id counter, dfa). -/
def subsetStep (nfa : NFA) (T : Finset Int) (currentId : Int)
    (acc : List (Finset Int × Int) × List (Finset Int) × Nat × DFA) (symbol : Char) :
    List (Finset Int × Int) × List (Finset Int) × Nat × DFA :=
  let U := nfa.epsilonClosureSet (nfa.move T symbol)
  if U = ∅ then acc
  else
    match mapFind acc.1 U with
    | some j => (acc.1, acc.2.1, acc.2.2.1, acc.2.2.2.addTransition currentId symbol j)
    | none =>
      let j : Int := acc.2.2.1
      let d1 := acc.2.2.2.addState j false
      let d2 := if ∃ x ∈ U, x ∈ nfa.acceptingStates then d1.addAcceptingState j else d1
      (acc.1 ++ [(U, j)], acc.2.1 ++ [U], acc.2.2.1 + 1, d2.addTransition currentId symbol j)

/-- Fuel bound for the subset-construction worklist: each iteration pops one
queue entry, and a subset is enqueued at most once, so `2 ^ (#states + 1) + 1`
dominates the iteration count for the NFAs the generator builds. -/
def subsetFuel (n : NFA) : Nat := 2 ^ (n.states.length + 1) + 1

/-- The `while (!unmarkedStates.empty())` worklist of `DFA::fromNFA`:
pop a subset, process each alphabet symbol in ascending (set) order. -/
def subsetLoop (nfa : NFA) (alpha : List Char) :
    Nat → List (Finset Int × Int) → List (Finset Int) → Nat → DFA → DFA
  | 0, _, _, _, d => d
  | fuel + 1, m, q, counter, d =>
    match q with
    | [] => d
    | T :: qRest =>
      let currentId := (mapFind m T).getD 0
      let acc := alpha.foldl (subsetStep nfa T currentId) (m, qRest, counter, d)
      subsetLoop nfa alpha fuel acc.1 acc.2.1 acc.2.2.1 acc.2.2.2

/-- Embeds `DFA::fromNFA(nfa)`: alphabet discovery, start closure, then the
worklist subset construction. -/
def DFA.fromNFA (nfa : NFA) : DFA :=
  let alpha : List Char :=
    nfa.transitions.foldl
      (fun a t => if t.symbol = epsChar then a else insertSortedChar t.symbol a) []
  let startClosure := nfa.epsilonClosure nfa.startState
  let d0 : DFA := { DFA.empty with alphabet := alpha }
  let d1 := (d0.setStartState 0).addState 0 false
  let d2 := if ∃ x ∈ startClosure, x ∈ nfa.acceptingStates then d1.addAcceptingState 0 else d1
  subsetLoop nfa alpha (subsetFuel nfa) [(startClosure, 0)] [startClosure] 1 d2

/-- Lexicographic order on character lists: the `operator<` of `std::string`
used by the `map<string, string>` of token patterns. -/
def listCharLt : List Char → List Char → Bool
  | [], [] => false
  | [], _ :: _ => true
  | _ :: _, [] => false
  | a :: as, b :: bs => if a < b then true else if b < a then false else listCharLt as bs

/-- Embeds `std::map<string,string>` insertion (`tokenPatterns[tokenType] = pattern`):
keep the association list sorted by key, replacing the binding of an existing
key. -/
def mapInsert (m : List (List Char × List Char)) (k v : List Char) :
    List (List Char × List Char) :=
  match m with
  | [] => [(k, v)]
  | (k2, v2) :: rest =>
    if listCharLt k k2 then (k, v) :: (k2, v2) :: rest
    else if k = k2 then (k, v) :: rest
    else (k2, v2) :: mapInsert rest k v

/-- Lookup in the `tokenPatterns` map. -/
def mapLookup (m : List (List Char × List Char)) (k : List Char) : Option (List Char) :=
  (m.find? fun e => decide (e.1 = k)).map Prod.snd

/-- The keys of a `tokenPatterns` association list are strictly ascending
(the `std::map` invariant). -/
def keysSorted (m : List (List Char × List Char)) : Prop :=
  List.Chain' (fun a b => listCharLt a b = true) (m.map Prod.fst)

/-- Embeds C++ `class LexicalAnalyzerGenerator`.  `tokenPatterns` is the
`map<string,string>` from token-type name to pattern. -/
structure LexicalAnalyzerGenerator where
  tokenPatterns : List (List Char × List Char)
  combinedNFA : NFA
  finalDFA : DFA
deriving DecidableEq, Repr

/-- A freshly constructed generator. -/
def emptyGenerator : LexicalAnalyzerGenerator := ⟨[], NFA.empty, DFA.empty⟩

/-- Embeds `LexicalAnalyzerGenerator::addTokenPattern(tokenType, pattern)`:
`tokenPatterns[tokenType] = pattern`. -/
def addTokenPattern (g : LexicalAnalyzerGenerator) (tokenType pattern : List Char) :
    LexicalAnalyzerGenerator :=
  { g with tokenPatterns := mapInsert g.tokenPatterns tokenType pattern }

/-- Embeds `LexicalAnalyzerGenerator::build()`: per-pattern NFAs in map (name) order,
left fold of `union_op`, subset construction, then the token-type labeling
loop, which for EVERY pattern writes that pattern's name to EVERY accepting
DFA state (set iteration in ascending order), so the last name in map order
wins everywhere.  With no patterns the C++ prints an error and returns,
leaving the members default-constructed. -/
def build (g : LexicalAnalyzerGenerator) : LexicalAnalyzerGenerator :=
  let nfas := g.tokenPatterns.map fun p => NFA.fromRegex p.2
  match nfas with
  | [] => g
  | n0 :: rest =>
    let combined := rest.foldl NFA.union_op n0
    let dfa := DFA.fromNFA combined
    let dfa2 := g.tokenPatterns.foldl
      (fun d p => d.acceptingStates.foldl (fun d s => d.setTokenType s p.1) d) dfa
    { g with combinedNFA := combined, finalDFA := dfa2 }

/-- The `Token` struct of the scanner that `DFA::generateCppCode` emits. -/
structure Token where
  type : List Char
  lexeme : List Char
  line : Nat
  column : Nat
deriving DecidableEq, Repr

/-- The `for (size_t i = 0; ...)` loop of the emitted scanner's `tokenize`,
followed by the handle-last-token epilogue.  Errors (the emitted
`cerr << "Lexical error..."`) are collected as (line, column) pairs.
On a dead transition with a pending accepted position the emitted code slices
`currentLexeme.substr(0, lastAcceptPos + 1)` (an input index used as a lexeme
length, clamped like `substr`), emits the token, rewinds `i` to
`lastAcceptPos` (the loop increment then makes it `lastAcceptPos + 1`) and
resets the automaton.  The fuel supplied by `emittedTokenize` dominates the
iteration count for the inputs evaluated in this development. -/
def tokenizeLoop (d : DFA) (input : List Char) :
    Nat → Nat → Int → List Char → Nat → Nat → Int → Int → List Token → List (Nat × Nat) →
    List Token × List (Nat × Nat)
  | 0, _, _, _, _, _, _, _, tokens, errors => (tokens, errors)
  | fuel + 1, i, currentState, currentLexeme, line, column,
      lastAcceptState, lastAcceptPos, tokens, errors =>
    if hi : i < input.length then
      let c := input.get ⟨i, hi⟩
      let lc : Nat × Nat := if c = '\n' then (line + 1, 1) else (line, column + 1)
      let nextState := d.getNextState currentState c
      if nextState ≠ -1 then
        let newLexeme := currentLexeme ++ [c]
        if nextState ∈ d.acceptingStates then
          tokenizeLoop d input fuel (i + 1) nextState newLexeme lc.1 lc.2
            nextState (Int.ofNat i) tokens errors
        else
          tokenizeLoop d input fuel (i + 1) nextState newLexeme lc.1 lc.2
            lastAcceptState lastAcceptPos tokens errors
      else
        if lastAcceptState ≠ -1 then
          let tok : Token :=
            ⟨d.lookupTokenTypeD lastAcceptState, currentLexeme.take (lastAcceptPos + 1).toNat,
              line, column⟩
          tokenizeLoop d input fuel (lastAcceptPos + 1).toNat d.startState [] lc.1 lc.2
            (-1) (-1) (tokens ++ [tok]) errors
        else
          let errors2 :=
            if c ≠ ' ' ∧ c ≠ '\t' ∧ c ≠ '\n' then errors ++ [(line, column)] else errors
          tokenizeLoop d input fuel (i + 1) d.startState [] lc.1 lc.2 (-1) (-1) tokens errors2
    else
      if lastAcceptState ≠ -1 then
        (tokens ++ [⟨d.lookupTokenTypeD lastAcceptState, currentLexeme, line, column⟩], errors)
      else (tokens, errors)

/-- The `tokenize` method of the scanner emitted by `DFA::generateCppCode`:
returns the token list and the reported lexical errors. -/
def emittedTokenize (d : DFA) (input : List Char) : List Token × List (Nat × Nat) :=
  tokenizeLoop d input ((input.length + 2) * (input.length + 2)) 0 d.startState [] 1 1
    (-1) (-1) [] []

/-- A set of states that is saturated under the epsilon transitions of `n`. -/
def EpsClosed (n : NFA) (C : Finset Int) : Prop :=
  ∀ t ∈ n.transitions, t.symbol = epsChar → t.fromState ∈ C → t.toState ∈ C

theorem epsilonScan_subset (trs : List Transition) (current : Int)
    (closure : Finset Int) (stk : List Int) :
    closure ⊆ (epsilonScan trs current closure stk).1 := by
  induction trs generalizing closure stk with
  | nil => simp [epsilonScan]
  | cons t rest ih =>
    simp only [epsilonScan]
    by_cases h : t.fromState = current ∧ t.symbol = epsChar ∧ t.toState ∉ closure
    · simp only [if_pos h]
      exact (Finset.subset_insert _ _).trans (ih _ _)
    · simp only [if_neg h]
      exact ih _ _

theorem epsilonScan_len (trs : List Transition) (current : Int)
    (closure : Finset Int) (stk : List Int) :
    (epsilonScan trs current closure stk).2.length + closure.card
      = stk.length + (epsilonScan trs current closure stk).1.card := by
  induction trs generalizing closure stk with
  | nil => simp [epsilonScan]
  | cons t rest ih =>
    simp only [epsilonScan]
    by_cases h : t.fromState = current ∧ t.symbol = epsChar ∧ t.toState ∉ closure
    · simp only [if_pos h]
      have hcard : (insert t.toState closure).card = closure.card + 1 :=
        Finset.card_insert_of_not_mem h.2.2
      have hih := ih (insert t.toState closure) (t.toState :: stk)
      simp only [List.length_cons] at hih
      omega
    · simp only [if_neg h]
      exact ih _ _

theorem epsilonScan_mem_src (trs : List Transition) (current : Int)
    (closure : Finset Int) (stk : List Int) :
    ∀ x ∈ (epsilonScan trs current closure stk).1,
      x ∈ closure ∨ ∃ t ∈ trs, x = t.toState ∧ t.fromState = current ∧ t.symbol = epsChar := by
  induction trs generalizing closure stk with
  | nil => simp [epsilonScan]
  | cons t rest ih =>
    intro x hx
    simp only [epsilonScan] at hx
    by_cases h : t.fromState = current ∧ t.symbol = epsChar ∧ t.toState ∉ closure
    · rw [if_pos h] at hx
      rcases ih (insert t.toState closure) (t.toState :: stk) x hx with hc | ⟨u, hu, hx2⟩
      · rcases Finset.mem_insert.mp hc with rfl | hc
        · exact Or.inr ⟨t, List.mem_cons_self t rest, rfl, h.1, h.2.1⟩
        · exact Or.inl hc
      · exact Or.inr ⟨u, List.mem_cons_of_mem t hu, hx2⟩
    · rw [if_neg h] at hx
      rcases ih closure stk x hx with hc | ⟨u, hu, hx2⟩
      · exact Or.inl hc
      · exact Or.inr ⟨u, List.mem_cons_of_mem t hu, hx2⟩

theorem epsilonScan_stk_mono (trs : List Transition) (current : Int)
    (closure : Finset Int) (stk : List Int) :
    ∀ x ∈ stk, x ∈ (epsilonScan trs current closure stk).2 := by
  induction trs generalizing closure stk with
  | nil => simp [epsilonScan]
  | cons t rest ih =>
    intro x hx
    simp only [epsilonScan]
    by_cases h : t.fromState = current ∧ t.symbol = epsChar ∧ t.toState ∉ closure
    · rw [if_pos h]
      exact ih _ _ x (List.mem_cons_of_mem _ hx)
    · rw [if_neg h]
      exact ih _ _ x hx

theorem epsilonScan_new_in_stk (trs : List Transition) (current : Int)
    (closure : Finset Int) (stk : List Int) :
    ∀ x ∈ (epsilonScan trs current closure stk).1,
      x ∈ closure ∨ x ∈ (epsilonScan trs current closure stk).2 := by
  induction trs generalizing closure stk with
  | nil => simp only [epsilonScan]; exact fun x hx => Or.inl hx
  | cons t rest ih =>
    intro x hx
    simp only [epsilonScan] at hx ⊢
    by_cases h : t.fromState = current ∧ t.symbol = epsChar ∧ t.toState ∉ closure
    · rw [if_pos h] at hx ⊢
      rcases ih (insert t.toState closure) (t.toState :: stk) x hx with hc | hs
      · rcases Finset.mem_insert.mp hc with rfl | hc
        · exact Or.inr (epsilonScan_stk_mono rest current _ _ _ (List.mem_cons_self _ _))
        · exact Or.inl hc
      · exact Or.inr hs
    · rw [if_neg h] at hx ⊢
      exact ih closure stk x hx

theorem epsilonScan_stk_src (trs : List Transition) (current : Int)
    (closure : Finset Int) (stk : List Int) :
    ∀ x ∈ (epsilonScan trs current closure stk).2,
      x ∈ stk ∨ x ∈ (epsilonScan trs current closure stk).1 := by
  induction trs generalizing closure stk with
  | nil => simp only [epsilonScan]; exact fun x hx => Or.inl hx
  | cons t rest ih =>
    intro x hx
    simp only [epsilonScan] at hx ⊢
    by_cases h : t.fromState = current ∧ t.symbol = epsChar ∧ t.toState ∉ closure
    · rw [if_pos h] at hx ⊢
      rcases ih (insert t.toState closure) (t.toState :: stk) x hx with hs | hc
      · rcases List.mem_cons.mp hs with rfl | hs
        · exact Or.inr (epsilonScan_subset rest current _ _ (Finset.mem_insert_self _ _))
        · exact Or.inl hs
      · exact Or.inr hc
    · rw [if_neg h] at hx ⊢
      exact ih closure stk x hx

theorem epsilonScan_covers (trs : List Transition) (current : Int)
    (closure : Finset Int) (stk : List Int) :
    ∀ t ∈ trs, t.fromState = current → t.symbol = epsChar →
      t.toState ∈ (epsilonScan trs current closure stk).1 := by
  induction trs generalizing closure stk with
  | nil => simp
  | cons t rest ih =>
    intro u hu hfrom hsym
    simp only [epsilonScan]
    rcases List.mem_cons.mp hu with rfl | hu
    · by_cases h : u.fromState = current ∧ u.symbol = epsChar ∧ u.toState ∉ closure
      · rw [if_pos h]
        exact epsilonScan_subset rest current _ _ (Finset.mem_insert_self _ _)
      · rw [if_neg h]
        have : u.toState ∈ closure := by
          by_contra hc
          exact h ⟨hfrom, hsym, hc⟩
        exact epsilonScan_subset rest current _ _ this
    · by_cases h : t.fromState = current ∧ t.symbol = epsChar ∧ t.toState ∉ closure
      · rw [if_pos h]
        exact ih _ _ u hu hfrom hsym
      · rw [if_neg h]
        exact ih _ _ u hu hfrom hsym

theorem closureLoop_mono (n : NFA) (fuel : Nat) :
    ∀ closure stk, closure ⊆ closureLoop n fuel closure stk := by
  induction fuel with
  | zero => intro closure stk; simp [closureLoop]
  | succ fuel ih =>
    intro closure stk
    cases stk with
    | nil => simp [closureLoop]
    | cons current rest =>
      simp only [closureLoop]
      exact (epsilonScan_subset n.transitions current closure rest).trans (ih _ _)

theorem closureLoop_le (n : NFA) (C : Finset Int) (hC : EpsClosed n C) (fuel : Nat) :
    ∀ closure stk, closure ⊆ C → (∀ x ∈ stk, x ∈ C) →
      closureLoop n fuel closure stk ⊆ C := by
  induction fuel with
  | zero => intro closure stk hcl _; simpa [closureLoop] using hcl
  | succ fuel ih =>
    intro closure stk hcl hstk
    cases stk with
    | nil => simpa [closureLoop] using hcl
    | cons current rest =>
      simp only [closureLoop]
      have hcur : current ∈ C := hstk current (List.mem_cons_self _ _)
      have h1 : (epsilonScan n.transitions current closure rest).1 ⊆ C := by
        intro x hx
        rcases epsilonScan_mem_src n.transitions current closure rest x hx with
          hc | ⟨t, ht, rfl, hfrom, hsym⟩
        · exact hcl hc
        · exact hC t ht hsym (hfrom ▸ hcur)
      apply ih _ _ h1
      intro x hx
      rcases epsilonScan_stk_src n.transitions current closure rest x hx with hs | hc
      · exact hstk x (List.mem_cons_of_mem _ hs)
      · exact h1 hc

theorem epsilonScan_measure (n : NFA) (current : Int) (closure : Finset Int) (stk : List Int) :
    closureMeasure n (epsilonScan n.transitions current closure stk).1
        (epsilonScan n.transitions current closure stk).2 + 1
      ≤ closureMeasure n closure (current :: stk) := by
  have hsub : closure ⊆ (epsilonScan n.transitions current closure stk).1 :=
    epsilonScan_subset _ _ _ _
  have hlen := epsilonScan_len n.transitions current closure stk
  have hNsub : (epsilonScan n.transitions current closure stk).1 \ closure
      ⊆ targetsOf n \ closure := by
    intro x hx
    rw [Finset.mem_sdiff] at hx ⊢
    refine ⟨?_, hx.2⟩
    rcases epsilonScan_mem_src n.transitions current closure stk x hx.1 with
      hc | ⟨t, ht, rfl, _, _⟩
    · exact absurd hc hx.2
    · rw [targetsOf, List.mem_toFinset]
      exact List.mem_map.mpr ⟨t, ht, rfl⟩
  have hkey : targetsOf n \ (epsilonScan n.transitions current closure stk).1
      = (targetsOf n \ closure) \ ((epsilonScan n.transitions current closure stk).1 \ closure) := by
    ext x
    simp only [Finset.mem_sdiff]
    have hs2 : x ∈ closure → x ∈ (epsilonScan n.transitions current closure stk).1 :=
      fun h => hsub h
    tauto
  have hd : (targetsOf n \ (epsilonScan n.transitions current closure stk).1).card
      = (targetsOf n \ closure).card
        - ((epsilonScan n.transitions current closure stk).1 \ closure).card := by
    rw [hkey, Finset.card_sdiff hNsub]
  have hdle : ((epsilonScan n.transitions current closure stk).1 \ closure).card
      ≤ (targetsOf n \ closure).card := Finset.card_le_card hNsub
  have hcc : ((epsilonScan n.transitions current closure stk).1 \ closure).card + closure.card
      = (epsilonScan n.transitions current closure stk).1.card :=
    Finset.card_sdiff_add_card_eq_card hsub
  unfold closureMeasure
  simp only [List.length_cons]
  set a := (targetsOf n \ closure).card with ha
  set b := (targetsOf n \ (epsilonScan n.transitions current closure stk).1).card with hb
  set d := ((epsilonScan n.transitions current closure stk).1 \ closure).card with hdd
  set K := n.transitions.length + 1 with hK
  have hab : a = b + d := by omega
  have hmul : a * K = b * K + d * K := by rw [hab, Nat.add_mul]
  have hdK : d ≤ d * K := Nat.le_mul_of_pos_right d (by omega)
  omega

theorem closureLoop_closed (n : NFA) (fuel : Nat) :
    ∀ closure stk, closureMeasure n closure stk ≤ fuel →
      (∀ t ∈ n.transitions, t.symbol = epsChar → t.fromState ∈ closure →
        t.fromState ∉ stk → t.toState ∈ closure) →
      EpsClosed n (closureLoop n fuel closure stk) := by
  induction fuel with
  | zero =>
    intro closure stk hm hinv
    have hstk : stk = [] := by
      cases stk with
      | nil => rfl
      | cons a l =>
        exfalso
        unfold closureMeasure at hm
        simp only [List.length_cons] at hm
        omega
    subst hstk
    intro t ht hsym hfrom
    exact hinv t ht hsym hfrom (List.not_mem_nil _)
  | succ fuel ih =>
    intro closure stk hm hinv
    cases stk with
    | nil =>
      simp only [closureLoop]
      intro t ht hsym hfrom
      exact hinv t ht hsym hfrom (List.not_mem_nil _)
    | cons current rest =>
      simp only [closureLoop]
      apply ih
      · have := epsilonScan_measure n current closure rest
        omega
      · intro t ht hsym hfrom hnot
        rcases epsilonScan_new_in_stk n.transitions current closure rest t.fromState hfrom with
          hfc | hfs
        · by_cases hcur : t.fromState = current
          · exact epsilonScan_covers n.transitions current closure rest t ht hcur hsym
          · by_cases hrest : t.fromState ∈ rest
            · exact absurd (epsilonScan_stk_mono n.transitions current closure rest _ hrest) hnot
            · have hto : t.toState ∈ closure := by
                apply hinv t ht hsym hfc
                simp only [List.mem_cons, not_or]
                exact ⟨hcur, hrest⟩
              exact epsilonScan_subset n.transitions current closure rest hto
        · exact absurd hfs hnot

theorem closureMeasure_init_le (n : NFA) (s : Int) :
    closureMeasure n {s} [s] ≤ closureFuel n := by
  unfold closureMeasure closureFuel
  have h1 : (targetsOf n \ {s}).card ≤ (targetsOf n).card :=
    Finset.card_le_card Finset.sdiff_subset
  have h2 := Nat.mul_le_mul_right (n.transitions.length + 1) h1
  have h3 : (targetsOf n).card * (n.transitions.length + 1)
      ≤ ((targetsOf n).card + 1) * (n.transitions.length + 1) :=
    Nat.mul_le_mul_right _ (Nat.le_succ _)
  simp only [List.length_singleton]
  omega

theorem epsilonClosure_closed (n : NFA) (s : Int) : EpsClosed n (n.epsilonClosure s) := by
  unfold NFA.epsilonClosure
  apply closureLoop_closed n (closureFuel n) {s} [s] (closureMeasure_init_le n s)
  intro t ht hsym hmem hnot
  exfalso
  apply hnot
  rw [Finset.mem_singleton.mp hmem]
  exact List.mem_singleton_self s

theorem mem_epsilonClosure_self (n : NFA) (s : Int) : s ∈ n.epsilonClosure s :=
  closureLoop_mono n (closureFuel n) {s} [s] (Finset.mem_singleton_self s)

theorem epsilonClosure_le (n : NFA) (s : Int) (C : Finset Int)
    (hC : EpsClosed n C) (hs : s ∈ C) : n.epsilonClosure s ⊆ C := by
  apply closureLoop_le n C hC (closureFuel n) {s} [s]
  · exact Finset.singleton_subset_iff.mpr hs
  · intro x hx
    rw [List.mem_singleton] at hx
    subst hx
    exact hs

/-- C9: for every NFA and every state set `S`, the epsilon-closure operation
is idempotent: `epsilonClosure (epsilonClosure S) = epsilonClosure S` — the
computed closure is already saturated under following epsilon transitions. -/
theorem C9_epsilonClosure_idempotent (n : NFA) (S : Finset Int) :
    n.epsilonClosureSet (n.epsilonClosureSet S) = n.epsilonClosureSet S := by
  apply Finset.Subset.antisymm
  · intro x hx
    rw [NFA.epsilonClosureSet, Finset.mem_biUnion] at hx
    obtain ⟨t, ht, hxt⟩ := hx
    rw [NFA.epsilonClosureSet, Finset.mem_biUnion] at ht
    obtain ⟨s, hs, hts⟩ := ht
    have hsub : n.epsilonClosure t ⊆ n.epsilonClosure s :=
      epsilonClosure_le n t _ (epsilonClosure_closed n s) hts
    rw [NFA.epsilonClosureSet, Finset.mem_biUnion]
    exact ⟨s, hs, hsub hxt⟩
  · intro x hx
    rw [NFA.epsilonClosureSet, Finset.mem_biUnion]
    exact ⟨x, hx, mem_epsilonClosure_self n x⟩

/-- Spec 4.1: "After insertion, operators are `{'|', '.', '*'}`". -/
def specIsOp (c : Char) : Prop := c = '|' ∨ c = '.' ∨ c = '*'

instance (c : Char) : Decidable (specIsOp c) := by unfold specIsOp; infer_instance

/-- Spec 4.1: "Precedences: `* = 3`, `. = 2`, `| = 1`." -/
def specPrec (c : Char) : Int :=
  if c = '*' then 3 else if c = '.' then 2 else if c = '|' then 1 else 0

/-- Spec 4.1 step 1, stated on adjacent pairs: "between adjacent tokens `a`
then `b`, insert the concatenation operator `.` iff `a ∉ {'(', '|'}` and
`b ∉ {')', '|', '*'}`". -/
def specInsertConcat : List Char → List Char
  | a :: b :: rest =>
    if a = '(' ∨ a = '|' ∨ b = ')' ∨ b = '|' ∨ b = '*' then
      a :: specInsertConcat (b :: rest)
    else
      a :: '.' :: specInsertConcat (b :: rest)
  | s => s

/-- Spec 4.1 step 2: "Binary/unary operators pop while the stack top is an
operator of precedence ≥ the current operator". -/
def specPopGE (c : Char) : List Char → List Char × List Char
  | [] => ([], [])
  | top :: rest =>
    if specIsOp top ∧ specPrec top ≥ specPrec c then
      let p := specPopGE c rest
      (top :: p.1, p.2)
    else ([], top :: rest)

/-- Spec 4.1 step 2: "`)` pops to output until matching `(`". -/
def specPopUntil : List Char → List Char × List Char
  | [] => ([], [])
  | top :: rest =>
    if top ≠ '(' then
      let p := specPopUntil rest
      (top :: p.1, p.2)
    else ([], rest)

/-- Spec 4.1 step 2 (shunting-yard as the spec words it): operands are
appended to the output, `(` pushes, `)` pops to the matching `(`, operators
pop while the top is an operator of precedence ≥ theirs, and at the end the
stack is flushed to the output. -/
def specShunt : List Char → List Char → List Char
  | [], stk => stk
  | c :: rest, stk =>
    if c = '(' then specShunt rest (c :: stk)
    else if c = ')' then
      let p := specPopUntil stk
      p.1 ++ specShunt rest p.2
    else if specIsOp c then
      let p := specPopGE c stk
      p.1 ++ specShunt rest (c :: p.2)
    else c :: specShunt rest stk

/-- The spec's two-stage `to_postfix`. -/
def specToSuffix (pattern : List Char) : List Char :=
  specShunt (specInsertConcat pattern) []

theorem addConcatenation_eq_spec (s : List Char) :
    RegexParser.addConcatenation s = specInsertConcat s := by
  induction s with
  | nil => rfl
  | cons a rest ih =>
    cases rest with
    | nil => rfl
    | cons b rest2 =>
      rw [RegexParser.addConcatenation, specInsertConcat]
      have hiff : ((a ≠ '(' ∧ a ≠ '|') ∧ (b ≠ ')' ∧ b ≠ '|' ∧ b ≠ '*'))
          ↔ ¬(a = '(' ∨ a = '|' ∨ b = ')' ∨ b = '|' ∨ b = '*') := by
        push_neg
        tauto
      by_cases h : a = '(' ∨ a = '|' ∨ b = ')' ∨ b = '|' ∨ b = '*'
      · rw [if_pos h, if_neg (fun hc => hiff.mp hc h)]
        simp [ih]
      · rw [if_neg h, if_pos (hiff.mpr h)]
        simp [ih]

theorem popUntilParen_eq_spec (stk : List Char) :
    RegexParser.popUntilParen stk = specPopUntil stk := by
  induction stk with
  | nil => rfl
  | cons top rest ih =>
    rw [RegexParser.popUntilParen, specPopUntil]
    by_cases h : top = '('
    · rw [if_pos h, if_neg (by simp [h])]
    · rw [if_neg h, if_pos h, ih]

theorem popWhile_eq_spec (c : Char) (hc : RegexParser.isOperator c = true) (stk : List Char) :
    RegexParser.popWhile c stk = specPopGE c stk := by
  have hcprec : 1 ≤ RegexParser.getPrecedence c := by
    rw [RegexParser.isOperator, decide_eq_true_iff] at hc
    rcases hc with rfl | rfl | rfl <;> decide
  induction stk with
  | nil => rfl
  | cons top rest ih =>
    rw [RegexParser.popWhile, specPopGE]
    have hguard : (top ≠ '(' ∧ RegexParser.getPrecedence top ≥ RegexParser.getPrecedence c)
        ↔ (specIsOp top ∧ specPrec top ≥ specPrec c) := by
      have hpe : specPrec top = RegexParser.getPrecedence top := rfl
      have hpc : specPrec c = RegexParser.getPrecedence c := rfl
      constructor
      · rintro ⟨hp, hge⟩
        have htop : 1 ≤ RegexParser.getPrecedence top := le_trans hcprec hge
        have hop : specIsOp top := by
          by_contra hno
          rw [specIsOp, not_or, not_or] at hno
          have : RegexParser.getPrecedence top = 0 := by
            rw [RegexParser.getPrecedence, if_neg hno.2.2, if_neg hno.2.1, if_neg hno.1]
          omega
        exact ⟨hop, by rw [hpe, hpc]; exact hge⟩
      · rintro ⟨hop, hge⟩
        refine ⟨?_, by rw [← hpe, ← hpc]; exact hge⟩
        rcases hop with rfl | rfl | rfl <;> decide
    by_cases h : top ≠ '(' ∧ RegexParser.getPrecedence top ≥ RegexParser.getPrecedence c
    · rw [if_pos h, if_pos (hguard.mp h), ih]
    · rw [if_neg h, if_neg (fun hs => h (hguard.mpr hs))]

theorem shunt_eq_spec (input : List Char) :
    ∀ stk, RegexParser.shunt input stk = specShunt input stk := by
  induction input with
  | nil => intro stk; rfl
  | cons c rest ih =>
    intro stk
    rw [RegexParser.shunt, specShunt]
    by_cases hparen : c = '('
    · subst hparen
      simp only [RegexParser.isOperator]
      norm_num
      exact ih _
    · by_cases hclose : c = ')'
      · subst hclose
        simp only [RegexParser.isOperator]
        norm_num
        simp only [popUntilParen_eq_spec, ih]
      · by_cases hop : RegexParser.isOperator c = true
        · have hspec : specIsOp c := by
            rw [RegexParser.isOperator, decide_eq_true_iff] at hop
            rw [specIsOp]
            tauto
          rw [if_neg (by simp [hop]), if_neg hparen, if_neg hclose, if_neg hparen,
            if_neg hclose, if_pos hspec]
          simp only [popWhile_eq_spec c hop, ih]
        · have hnspec : ¬ specIsOp c := by
            rw [RegexParser.isOperator, decide_eq_true_iff] at hop
            rw [specIsOp]
            tauto
          rw [if_pos ⟨by simpa using hop, hparen, hclose⟩, if_neg hparen, if_neg hclose,
            if_neg hnspec, ih]

/-- C8: `infixToPostfix` first inserts `.` between adjacent `a`, `b` exactly
when `a ∉ {'(', '|'}` and `b ∉ {')', '|', '*'}`, then runs shunting-yard with
precedences `* = 3`, `. = 2`, `| = 1`, popping while the stack top is an
operator of precedence ≥ the incoming operator's, `(` pushing and `)` popping
to the matching `(` — i.e. it agrees with the spec's two-stage `to_postfix`
on every pattern, and the precedence table is as stated. -/
theorem C8_infixToPostfix_matches_spec (regex : List Char) :
    RegexParser.toSuffix regex = specToSuffix regex ∧
    RegexParser.getPrecedence '*' = 3 ∧
    RegexParser.getPrecedence '.' = 2 ∧
    RegexParser.getPrecedence '|' = 1 := by
  refine ⟨?_, by decide, by decide, by decide⟩
  rw [RegexParser.toSuffix, specToSuffix, addConcatenation_eq_spec, shunt_eq_spec]

theorem validCount_filter (p : List Char) :
    ∀ count : Int, 0 ≤ count →
      RegexParser.validCount count (p.filter fun c => decide (c = '(' ∨ c = ')'))
        = RegexParser.validCount count p := by
  induction p with
  | nil => intro count _; rfl
  | cons c rest ih =>
    intro count hcount
    by_cases h1 : c = '('
    · subst h1
      rw [List.filter_cons_of_pos (by decide)]
      rw [RegexParser.validCount, RegexParser.validCount]
      rw [if_pos rfl, if_neg (show ¬(('(' : Char) = ')') by decide),
        if_neg (show ¬(count + 1 < 0) by omega), if_neg (show ¬(count + 1 < 0) by omega)]
      exact ih (count + 1) (by omega)
    · by_cases h2 : c = ')'
      · subst h2
        rw [List.filter_cons_of_pos (by decide)]
        rw [RegexParser.validCount, RegexParser.validCount]
        rw [if_neg (show ¬((')' : Char) = '(') by decide), if_pos rfl]
        by_cases h3 : count - 1 < 0
        · rw [if_pos h3, if_pos h3]
        · rw [if_neg h3, if_neg h3]
          exact ih (count - 1) (by omega)
      · rw [List.filter_cons_of_neg (by simp [h1, h2])]
        rw [RegexParser.validCount]
        rw [if_neg h1, if_neg h2, if_neg (show ¬(count < 0) by omega)]
        exact ih count hcount

/-- C10: `isValidRegex` depends only on the parenthesis characters: it agrees
with itself on the pattern with every non-parenthesis character removed, and
every parenthesis-free pattern (operator-only or operator-misplaced patterns
included) passes validation. -/
theorem C10_isValidRegex_parens_only (p : List Char) :
    RegexParser.isValidRegex p
        = RegexParser.isValidRegex (p.filter fun c => decide (c = '(' ∨ c = ')')) ∧
      ((∀ c ∈ p, c ≠ '(' ∧ c ≠ ')') → RegexParser.isValidRegex p = true) := by
  constructor
  · exact (validCount_filter p 0 le_rfl).symm
  · intro h
    have hnil : p.filter (fun c => decide (c = '(' ∨ c = ')')) = [] := by
      rw [List.filter_eq_nil_iff]
      intro a ha
      have := h a ha
      simp [this.1, this.2]
    rw [RegexParser.isValidRegex, ← validCount_filter p 0 le_rfl, hnil]
    rfl

/-- C10 witness: the parenthesis-free, operator-misplaced pattern `a||b`
validates as the empty pattern does, and passes validation. -/
theorem C10_isValidRegex_parens_only_witness :
    RegexParser.isValidRegex ['a', '|', '|', 'b'] = RegexParser.isValidRegex [] ∧
      RegexParser.isValidRegex ['a', '|', '|', 'b'] = true := by
  have h := C10_isValidRegex_parens_only ['a', '|', '|', 'b']
  exact ⟨h.1.trans (by decide), h.2 (by decide)⟩

/-- The reachability predicate a `DFA.accepts` run realizes: there is a chain
of defined (`≠ -1`) `getNextState` steps from `s` through `w` to `f`. -/
inductive DfaPath (d : DFA) : Int → List Char → Int → Prop
  | nil (s : Int) : DfaPath d s [] s
  | cons {s f : Int} {c : Char} {w : List Char} :
      d.getNextState s c ≠ -1 → DfaPath d (d.getNextState s c) w f → DfaPath d s (c :: w) f

theorem acceptsFrom_iff_path (d : DFA) (w : List Char) :
    ∀ s, d.acceptsFrom s w = true ↔ ∃ f, DfaPath d s w f ∧ f ∈ d.acceptingStates := by
  induction w with
  | nil =>
    intro s
    rw [DFA.acceptsFrom, decide_eq_true_iff]
    constructor
    · intro h
      exact ⟨s, DfaPath.nil s, h⟩
    · rintro ⟨f, hp, hf⟩
      cases hp
      exact hf
  | cons c rest ih =>
    intro s
    rw [DFA.acceptsFrom]
    by_cases h : d.getNextState s c = -1
    · rw [if_pos h]
      constructor
      · intro hfalse
        exact absurd hfalse (by simp)
      · rintro ⟨f, hp, hf⟩
        cases hp with
        | cons hne _ => exact absurd h hne
    · rw [if_neg h, ih]
      constructor
      · rintro ⟨f, hp, hf⟩
        exact ⟨f, DfaPath.cons h hp, hf⟩
      · rintro ⟨f, hp, hf⟩
        cases hp with
        | cons hne hp2 => exact ⟨f, hp2, hf⟩

/-- C3 (amended): `accepts(w)` is true iff the DFA run over the whole of `w`
from the start state stays defined and ends in an accepting state — i.e. `w`
matches a single token of the DFA's language.  (It does not run the scanner;
see the counterexample for an input that tokenizes without error yet is
rejected.) -/
theorem C3_accepts_iff_single_token (d : DFA) (w : List Char) :
    d.accepts w = true ↔ ∃ f, DfaPath d d.startState w f ∧ f ∈ d.acceptingStates :=
  acceptsFrom_iff_path d w d.startState

theorem listCharLt_conn (a : List Char) :
    ∀ b, listCharLt a b = false → a ≠ b → listCharLt b a = true := by
  induction a with
  | nil =>
    intro b h1 h2
    cases b with
    | nil => exact absurd rfl h2
    | cons x xs => exact absurd h1 (by rw [listCharLt]; simp)
  | cons x xs ih =>
    intro b h1 h2
    cases b with
    | nil => rfl
    | cons y ys =>
      rw [listCharLt] at h1 ⊢
      rcases lt_trichotomy x y with hlt | heq | hgt
      · rw [if_pos hlt] at h1
        exact absurd h1 (by simp)
      · subst heq
        rw [if_neg (lt_irrefl x), if_neg (lt_irrefl x)] at h1 ⊢
        apply ih
        · exact h1
        · intro he
          exact h2 (by rw [he])
      · rw [if_pos hgt]

theorem mapInsert_head (rest : List (List Char × List Char)) (k v : List Char) :
    ((mapInsert rest k v).map Prod.fst).head? = some k ∨
      ((mapInsert rest k v).map Prod.fst).head? = (rest.map Prod.fst).head? := by
  cases rest with
  | nil => left; rfl
  | cons e t =>
    obtain ⟨k3, v3⟩ := e
    rw [mapInsert]
    by_cases h1 : listCharLt k k3 = true
    · rw [if_pos h1]
      left
      rfl
    · rw [if_neg h1]
      by_cases h2 : k = k3
      · rw [if_pos h2]
        left
        rfl
      · rw [if_neg h2]
        right
        rfl

theorem mapInsert_keysSorted (m : List (List Char × List Char)) (k v : List Char)
    (hs : keysSorted m) : keysSorted (mapInsert m k v) := by
  induction m with
  | nil => simp [mapInsert, keysSorted]
  | cons e rest ih =>
    obtain ⟨k2, v2⟩ := e
    rw [keysSorted, List.map_cons, List.chain'_cons'] at hs
    obtain ⟨hhead, hrest⟩ := hs
    rw [mapInsert]
    by_cases h1 : listCharLt k k2 = true
    · rw [if_pos h1]
      rw [keysSorted, List.map_cons, List.map_cons, List.chain'_cons']
      refine ⟨?_, ?_⟩
      · intro h hh
        simp only [List.head?_cons, Option.mem_def, Option.some.injEq] at hh
        rw [← hh]
        exact h1
      · rw [List.chain'_cons']
        exact ⟨hhead, hrest⟩
    · rw [if_neg h1]
      by_cases h2 : k = k2
      · rw [if_pos h2]
        subst h2
        rw [keysSorted, List.map_cons, List.chain'_cons']
        exact ⟨hhead, hrest⟩
      · rw [if_neg h2]
        have hconn : listCharLt k2 k = true :=
          listCharLt_conn k k2 (Bool.not_eq_true _ ▸ h1 : listCharLt k k2 = false) h2
        rw [keysSorted, List.map_cons, List.chain'_cons']
        refine ⟨?_, ih hrest⟩
        intro h hh
        rcases mapInsert_head rest k v with hcase | hcase
        · rw [hcase] at hh
          simp only [Option.mem_def, Option.some.injEq] at hh
          rw [← hh]
          exact hconn
        · rw [hcase] at hh
          exact hhead h hh

theorem mapLookup_mapInsert_self (m : List (List Char × List Char)) (k v : List Char) :
    mapLookup (mapInsert m k v) k = some v := by
  induction m with
  | nil => simp [mapInsert, mapLookup]
  | cons e rest ih =>
    obtain ⟨k2, v2⟩ := e
    rw [mapInsert]
    by_cases h1 : listCharLt k k2 = true
    · rw [if_pos h1]
      simp [mapLookup]
    · rw [if_neg h1]
      by_cases h2 : k = k2
      · rw [if_pos h2]
        simp [mapLookup]
      · rw [if_neg h2]
        rw [mapLookup, List.find?_cons_of_neg _ (by simp [Ne.symm h2])]
        exact ih

theorem mapLookup_mapInsert_other (m : List (List Char × List Char)) (k v k2 : List Char)
    (hne : k2 ≠ k) : mapLookup (mapInsert m k v) k2 = mapLookup m k2 := by
  induction m with
  | nil => simp [mapInsert, mapLookup, Ne.symm hne]
  | cons e rest ih =>
    obtain ⟨k3, v3⟩ := e
    rw [mapInsert]
    by_cases h1 : listCharLt k k3 = true
    · rw [if_pos h1]
      rw [mapLookup, List.find?_cons_of_neg _ (by simp [Ne.symm hne])]
      rfl
    · rw [if_neg h1]
      by_cases h2 : k = k3
      · rw [if_pos h2]
        subst h2
        rw [mapLookup, List.find?_cons_of_neg _ (by simp [Ne.symm hne]),
          mapLookup, List.find?_cons_of_neg _ (by simp [Ne.symm hne])]
      · rw [if_neg h2]
        by_cases h3 : k3 = k2
        · subst h3
          rw [mapLookup, List.find?_cons_of_pos _ (by simp),
            mapLookup, List.find?_cons_of_pos _ (by simp)]
        · rw [mapLookup, List.find?_cons_of_neg _ (by simp [h3]),
            mapLookup, List.find?_cons_of_neg _ (by simp [h3])]
          exact ih

/-- C4 (amended): `tokenPatterns` is a name-keyed sorted map, not an
insertion-ordered list of independent specs: after `addTokenPattern`, looking
up the added name yields the new pattern (an earlier spec with the same name
is replaced, not kept), other names are untouched, and the map stays sorted
by name — so `build()` iterates specs in lexicographic name order, not in
insertion order. -/
theorem C4_tokenPatterns_name_keyed_map (g : LexicalAnalyzerGenerator)
    (name pattern : List Char) :
    mapLookup (addTokenPattern g name pattern).tokenPatterns name = some pattern ∧
    (∀ other, other ≠ name →
      mapLookup (addTokenPattern g name pattern).tokenPatterns other
        = mapLookup g.tokenPatterns other) ∧
    (keysSorted g.tokenPatterns → keysSorted (addTokenPattern g name pattern).tokenPatterns) := by
  refine ⟨?_, ?_, ?_⟩
  · exact mapLookup_mapInsert_self g.tokenPatterns name pattern
  · intro other hne
    exact mapLookup_mapInsert_other g.tokenPatterns name pattern other hne
  · intro hs
    exact mapInsert_keysSorted g.tokenPatterns name pattern hs

/-- C4 witness: instantiating the amended statement at a concrete generator. -/
theorem C4_tokenPatterns_name_keyed_map_witness :
    mapLookup (addTokenPattern (addTokenPattern emptyGenerator ['B'] ['b']) ['A'] ['a']).tokenPatterns
        ['A'] = some ['a'] ∧
    mapLookup (addTokenPattern (addTokenPattern emptyGenerator ['B'] ['b']) ['A'] ['a']).tokenPatterns
        ['B'] = mapLookup (addTokenPattern emptyGenerator ['B'] ['b']).tokenPatterns ['B'] ∧
    keysSorted (addTokenPattern (addTokenPattern emptyGenerator ['B'] ['b']) ['A'] ['a']).tokenPatterns := by
  have h := C4_tokenPatterns_name_keyed_map (addTokenPattern emptyGenerator ['B'] ['b']) ['A'] ['a']
  have hbase : keysSorted (addTokenPattern emptyGenerator ['B'] ['b']).tokenPatterns :=
    List.chain'_singleton (['B'] : List Char)
  exact ⟨h.1, h.2.1 ['B'] (by decide), h.2.2 hbase⟩

/-- C4 counterexample: adding a spec whose name duplicates an earlier spec's
name does NOT keep both specs (one binding remains, with the later pattern),
and the order `build()` iterates is name order, not insertion order (here
`B` was added before `A`, yet `A` comes first). -/
theorem C4_duplicates_replaced_order_lexicographic :
    (addTokenPattern (addTokenPattern emptyGenerator ['A'] ['a']) ['A'] ['b']).tokenPatterns
        = [(['A'], ['b'])] ∧
    (addTokenPattern (addTokenPattern emptyGenerator ['A'] ['a']) ['A'] ['b']).tokenPatterns.length
        ≠ 2 ∧
    (addTokenPattern (addTokenPattern emptyGenerator ['B'] ['b']) ['A'] ['a']).tokenPatterns
        = [(['A'], ['a']), (['B'], ['b'])] := by
  refine ⟨by decide, by decide, by decide⟩

/-- C5 (amended): the stack evaluator of `NFA::fromRegex` never fails on
operator underflow: an operator arriving with fewer operands than it needs
(`*` with an empty stack, `|` or `.` with fewer than two entries) is silently
skipped, leaving the stack unchanged; no `MalformedRegex` error exists in the
code (the construction is total, and an empty final stack just yields the
default NFA — see the counterexample). -/
theorem C5_underflow_operators_skipped (stk : List NFA) (c : Char)
    (hop : c = '*' ∨ c = '|' ∨ c = '.')
    (hlen : stk.length < if c = '*' then 1 else 2) :
    NFA.stackStep stk c = stk := by
  rcases hop with rfl | rfl | rfl
  · rw [if_pos rfl] at hlen
    cases stk with
    | nil => rfl
    | cons n rest =>
      exfalso
      simp only [List.length_cons] at hlen
      omega
  · rw [if_neg (by decide)] at hlen
    cases stk with
    | nil => rfl
    | cons n rest =>
      cases rest with
      | nil => rfl
      | cons n2 rest2 =>
        exfalso
        simp only [List.length_cons] at hlen
        omega
  · rw [if_neg (by decide)] at hlen
    cases stk with
    | nil => rfl
    | cons n rest =>
      cases rest with
      | nil => rfl
      | cons n2 rest2 =>
        exfalso
        simp only [List.length_cons] at hlen
        omega

/-- C5 witness: a one-element stack is left unchanged by `|`. -/
theorem C5_underflow_operators_skipped_witness :
    NFA.stackStep [NFA.empty] '|' = [NFA.empty] :=
  C5_underflow_operators_skipped [NFA.empty] '|' (Or.inr (Or.inl rfl)) (by decide)

/-- C5 counterexample: on the malformed patterns `a|` and `*` the builder
does not fail with `MalformedRegex`: the underflowing `|` is silently skipped
(the result is exactly the NFA of `a`), and `*` alone leaves an empty stack,
returning the default empty NFA. -/
theorem C5_no_malformed_regex_error :
    NFA.fromRegex ['a', '|'] = NFA.fromRegex ['a'] ∧
    NFA.fromRegex ['*'] = NFA.empty := by
  refine ⟨by decide, by decide⟩

/-- Standard acceptance semantics of an embedded NFA (the subset simulation
defining the NFA's language); used to state language-level claims about
constructed NFAs.  The source has no NFA-run function — its NFAs are only
consumed by `DFA::fromNFA` — so the mathematical definition is used. -/
def nfaAccepts (n : NFA) (w : List Char) : Bool :=
  decide (∃ x ∈ w.foldl (fun S c => n.epsilonClosureSet (n.move S c))
    (n.epsilonClosureSet {n.startState}), x ∈ n.acceptingStates)

/-- C7 (amended): `fromRegex` on the empty pattern yields the
default-constructed NFA with no states and no accepting states, whose
language is EMPTY — it accepts no string at all, not even the empty string. -/
theorem C7_empty_regex_empty_language :
    NFA.fromRegex [] = NFA.empty ∧ ∀ w : List Char, nfaAccepts (NFA.fromRegex []) w = false := by
  refine ⟨rfl, ?_⟩
  intro w
  rw [nfaAccepts, decide_eq_false_iff_not]
  rintro ⟨x, _, hacc⟩
  exact List.not_mem_nil x hacc

/-- C7 counterexample: the NFA built from the empty pattern rejects the empty
string (the claim says it accepts exactly the empty string), and has no
accepting states at all. -/
theorem C7_empty_regex_rejects_empty_string :
    nfaAccepts (NFA.fromRegex []) [] = false ∧
    (NFA.fromRegex []).acceptingStates = [] := by
  refine ⟨by decide, by decide⟩

/-- C2 (code bug): `union_op` DOES merge accepting states, contradicting the
spec's combinator contract.  Combining the NFAs of `a` (accepting state 1,
renumbered to 2) and `b` (accepting state 1, renumbered to 4) yields an NFA
whose only accepting state is the fresh state 5: the operands' original
accepting states (2 and 4) are demoted to non-accepting, so downstream subset
construction cannot tell which token's accepting state is in a DFA subset. -/
theorem C2_union_op_merges_accepting_states :
    (NFA.union_op (NFA.fromSymbol 'a') (NFA.fromSymbol 'b')).acceptingStates = [5] ∧
    (2 : Int) ∉ (NFA.union_op (NFA.fromSymbol 'a') (NFA.fromSymbol 'b')).acceptingStates ∧
    (4 : Int) ∉ (NFA.union_op (NFA.fromSymbol 'a') (NFA.fromSymbol 'b')).acceptingStates ∧
    (NFA.fromSymbol 'a').acceptingStates = [1] ∧
    (NFA.fromSymbol 'b').acceptingStates = [1] := by
  refine ⟨by decide, by decide, by decide, by decide, by decide⟩

/-- C1 (code bug): after `build()` on the specs `A = "a"` (added first,
priority 0) and `B = "b"` (added second), the accepting DFA state reached
from the start state on `'a'` — whose subset contains only the `A` pattern's
path — is labeled `"B"`, as is every other accepting state: the labeling
loop writes every pattern's name over every accepting state, so the label is
the last name in map order, not the minimum-priority token of the subset. -/
theorem C1_build_labels_every_accepting_state_with_last_name :
    (build (addTokenPattern (addTokenPattern emptyGenerator ['A'] ['a'])
        ['B'] ['b'])).finalDFA.getNextState
      (build (addTokenPattern (addTokenPattern emptyGenerator ['A'] ['a'])
        ['B'] ['b'])).finalDFA.startState 'a' = 1 ∧
    (1 : Int) ∈ (build (addTokenPattern (addTokenPattern emptyGenerator ['A'] ['a'])
        ['B'] ['b'])).finalDFA.acceptingStates ∧
    (build (addTokenPattern (addTokenPattern emptyGenerator ['A'] ['a'])
        ['B'] ['b'])).finalDFA.lookupTokenType 1 = some ['B'] ∧
    (build (addTokenPattern (addTokenPattern emptyGenerator ['A'] ['a'])
        ['B'] ['b'])).finalDFA.lookupTokenType 2 = some ['B'] ∧
    (build (addTokenPattern (addTokenPattern emptyGenerator ['A'] ['a'])
        ['B'] ['b'])).finalDFA.acceptingStates = [1, 2] := by
  refine ⟨by decide, by decide, by decide, by decide, by decide⟩

/-- C3 counterexample: for the single spec `A = "a"`, the input `aa`
tokenizes completely without lexical errors (the scanner emits `A "a"` twice),
yet `accepts "aa"` is `false` — so `accepts` is NOT "true iff the whole input
tokenizes without errors"; it is single-token DFA acceptance. -/
theorem C3_accepts_is_not_tokenization :
    (build (addTokenPattern emptyGenerator ['A'] ['a'])).finalDFA.accepts ['a', 'a'] = false ∧
    (emittedTokenize (build (addTokenPattern emptyGenerator ['A'] ['a'])).finalDFA
      ['a', 'a']).2 = [] ∧
    (emittedTokenize (build (addTokenPattern emptyGenerator ['A'] ['a'])).finalDFA
      ['a', 'a']).1.map Token.lexeme = [['a'], ['a']] ∧
    ¬ ((build (addTokenPattern emptyGenerator ['A'] ['a'])).finalDFA.accepts ['a', 'a'] = true
        ↔ (emittedTokenize (build (addTokenPattern emptyGenerator ['A'] ['a'])).finalDFA
            ['a', 'a']).2 = []) := by
  refine ⟨by decide, by decide, by decide, by decide⟩

/-- C6 (code bug): for the specs `A = "a"`, `ABC = "abc"` and the input
`" abx"`, the emitted scanner's only token has lexeme `"ab"`, although the
longest accepting prefix at the token's start is `"a"` (the DFA accepts `"a"`
but not `"ab"`): the emitted code slices the lexeme with the absolute input
index `lastAcceptPos` (`currentLexeme.substr(0, lastAcceptPos + 1)`) instead
of a lexeme-relative length, so maximal munch is violated whenever a token
starts after position 0 and the automaton overshoots the accepted prefix. -/
theorem C6_emitted_scanner_lexeme_overshoot :
    (emittedTokenize (build (addTokenPattern (addTokenPattern emptyGenerator ['A'] ['a'])
        ['A', 'B', 'C'] ['a', 'b', 'c'])).finalDFA
      [' ', 'a', 'b', 'x']).1.map Token.lexeme = [['a', 'b']] ∧
    (build (addTokenPattern (addTokenPattern emptyGenerator ['A'] ['a'])
        ['A', 'B', 'C'] ['a', 'b', 'c'])).finalDFA.accepts ['a'] = true ∧
    (build (addTokenPattern (addTokenPattern emptyGenerator ['A'] ['a'])
        ['A', 'B', 'C'] ['a', 'b', 'c'])).finalDFA.accepts ['a', 'b'] = false := by
  refine ⟨by decide, by decide, by decide⟩

end LexGen
